import Mathlib

/-!
Verification development for the horoma training harness
(`utils/model_utils.py`, `semisupervised_trainer.py`).

The Python training routines are shallowly embedded: tensor losses become
functions over `ℝ` (DAMIC mixture loss) or `ℚ` (running-loss bookkeeping and
checkpoint/early-stopping control flow, which in the source only compares and
accumulates scalars), data loaders become explicit batch-size streams, and the
per-epoch control flow of both training loops becomes explicit state-passing
recursion.  Checkpoint writes that may raise `FileNotFoundError` are modelled
with `Except`, the abort value carrying the printed diagnostic.
-/

namespace Horoma

/-! ### DAMIC mixture loss (`_train_one_epoch_damic`, model_utils.py lines 167-195)

The source computes, for a batch of `n` inputs of `d` flattened features and
17 expert autoencoders (the loop `for i in range(17)` is hardcoded):
`criterion_ae = nn.MSELoss()` (mean over every element of the batch tensor),
`loss_autoencoders[i] = -(loss_autoencoder / 2.0)` (a scalar broadcast over the
row of length `n`), transpose, `exp`, elementwise product with the gating
predictions, `sum(dim=1)`, `log`, `sum()`, and backpropagates that sum. -/

/-- `nn.MSELoss()` with its default mean reduction: the mean of the squared
differences over all `n * d` elements of the batch tensor. -/
noncomputable def mseLossMean (n d : ℕ) (x y : Fin n → Fin d → ℝ) : ℝ :=
  (∑ s, ∑ j, (x s j - y s j) ^ 2) / (n * d)

/-- The quantity `total_loss` of the source at sample `s`:
`(conv_net_class_predictions * exp_loss_autoencoders).sum(dim=1)`, where row
`i` of `loss_autoencoders` is the broadcast scalar `-(mse i / 2)`. -/
noncomputable def damicTotalLikelihood (n : ℕ) (preds : Fin n → Fin 17 → ℝ)
    (mse : Fin 17 → ℝ) (s : Fin n) : ℝ :=
  ∑ i, preds s i * Real.exp (-(mse i) / 2)

/-- `total_loss_log_sum = total_loss.log().sum()`, the value the source
backpropagates, as a function of the 17 per-expert MSE scalars. -/
noncomputable def damicLossFromMSE (n : ℕ) (preds : Fin n → Fin 17 → ℝ)
    (mse : Fin 17 → ℝ) : ℝ :=
  ∑ s, Real.log (damicTotalLikelihood n preds mse s)

/-- The full batch loss of `_train_one_epoch_damic`: each expert `i`
contributes the single scalar `mseLossMean` of the whole batch against its
reconstruction (broadcast over samples), with no negation applied to the
summed log. -/
noncomputable def damicBatchLoss (n d : ℕ) (preds : Fin n → Fin 17 → ℝ)
    (inputs : Fin n → Fin d → ℝ) (recons : Fin 17 → Fin n → Fin d → ℝ) : ℝ :=
  damicLossFromMSE n preds (fun i => mseLossMean n d inputs (recons i))

/-- Modelled from the spec: the per-sample reconstruction MSE of expert `i` on
sample `s` (mean of squared differences over the feature dimension). -/
noncomputable def specPerSampleMSE (d : ℕ) (x y : Fin d → ℝ) : ℝ :=
  (∑ j, (x j - y j) ^ 2) / d

/-- Modelled from the spec (§4.4 steps 2-3): total per-sample likelihood
`Σ_i gate_i · exp(-MSE_i/2)` with `MSE_i` the per-sample MSE of expert `i`. -/
noncomputable def specTotalLikelihood (n d : ℕ) (preds : Fin n → Fin 17 → ℝ)
    (inputs : Fin n → Fin d → ℝ) (recons : Fin 17 → Fin n → Fin d → ℝ)
    (s : Fin n) : ℝ :=
  ∑ i, preds s i * Real.exp (-(specPerSampleMSE d (inputs s) (recons i s)) / 2)

/-- Modelled from the spec (§4.4 step 4): `Loss = −Σ_samples log(total
per-sample likelihood)`. -/
noncomputable def damicSpecLoss (n d : ℕ) (preds : Fin n → Fin 17 → ℝ)
    (inputs : Fin n → Fin d → ℝ) (recons : Fin 17 → Fin n → Fin d → ℝ) : ℝ :=
  -∑ s, Real.log (specTotalLikelihood n d preds inputs recons s)

/-- Modelled from the spec (§4.4 edge case): the batch loss the claim
describes, with the total per-sample likelihood floored at `1e-12` before the
logarithm. The source applies no such floor. -/
noncomputable def damicFlooredLoss (n d : ℕ) (preds : Fin n → Fin 17 → ℝ)
    (inputs : Fin n → Fin d → ℝ) (recons : Fin 17 → Fin n → Fin d → ℝ) : ℝ :=
  ∑ s, Real.log (max (1 / 10 ^ 12)
    (damicTotalLikelihood n preds (fun i => mseLossMean n d inputs (recons i)) s))

/-! Concrete inputs used to evaluate the DAMIC loss. -/

/-- A uniform gating distribution over the 17 clusters. -/
noncomputable def uniformPreds (n : ℕ) : Fin n → Fin 17 → ℝ := fun _ _ => 1 / 17

/-- A one-sample, one-feature batch whose single input value is `0`. -/
noncomputable def zeroBatch (n : ℕ) : Fin n → Fin 1 → ℝ := fun _ _ => 0

/-- Every expert reconstructs the constant value `2`. -/
noncomputable def constRecons (n : ℕ) : Fin 17 → Fin n → Fin 1 → ℝ := fun _ _ _ => 2

/-- Reconstructions for a two-sample batch: every expert reconstructs sample
`0` perfectly (value `0`) and misses sample `1` by `2`. -/
noncomputable def splitRecons : Fin 17 → Fin 2 → Fin 1 → ℝ :=
  fun _ s _ => if s = 0 then 0 else 2

/-! ### Label clamping (`_train_one_epoch_classifier`, model_utils.py 123-136)

The source clamps in two sequential tensor writes:
`labels[labels < 0] = 0` then `labels[labels > 16] = 16`. -/

/-- `labels[labels < 0] = 0`. -/
def clampLow (l : ℤ) : ℤ := if l < 0 then 0 else l

/-- The composite label transformation applied before the loss:
first negatives to `0`, then values above `16` to `16`. -/
def clampLabel (l : ℤ) : ℤ := if clampLow l > 16 then 16 else clampLow l

/-! ### Batch stream generator
(`loop_over_unlabeled_data` / `loop_over_labeled_data`, model_utils.py 316-329)

Both generators wrap `DataLoader(data, batch_size=batch_size, shuffle=True)`
(default `drop_last=False`: `N / B` full batches followed by one batch of
`N % B` samples when `B` does not divide `N`) in `while True: for batch in
iter(data_loader): yield batch`.  Shuffling permutes sample identities but not
batch sizes, so the stream of batch sizes is the faithful embedding. -/

/-- Sizes of the batches of one full pass of the `DataLoader`. -/
def passSizes (N B : ℕ) : List ℕ :=
  List.replicate (N / B) B ++ (if N % B = 0 then [] else [N % B])

/-- Number of batches in one full pass. -/
def numBatches (N B : ℕ) : ℕ := N / B + (if N % B = 0 then 0 else 1)

/-- The infinite stream of batch sizes yielded by the generator: after the
last batch of a pass, a new (reshuffled) pass begins transparently. -/
def batchStream (N B : ℕ) (k : ℕ) : ℕ :=
  (passSizes N B).getD (k % numBatches N B) 0

/-! ### Per-phase epoch routines of the semi-supervised trainer
(`_train_one_epoch_unlabeled` 332-371, `_train_one_epoch_labeled` 374-434)

Each routine consumes the first `nBatch` batches of the infinite stream,
accumulating `running_loss += loss.item()` and `n_total += len(inputs)`, then
computes `running_loss / n_total`.  In Python `0.0 / 0.0` raises
`ZeroDivisionError`; the embedding returns `none` in that case.  Per-batch
loss values are abstracted as a function of the batch index. -/

/-- `_train_one_epoch_unlabeled`: reconstruction phase over the unlabeled
stream (dataset size `N`).  Returns `none` when the final normalization
divides by a zero `n_total`. -/
def unlabeledEpochLoss (N B nBatch : ℕ) (batchLoss : ℕ → ℚ) : Option ℚ :=
  let nTotal : ℕ := ∑ k ∈ Finset.range nBatch, batchStream N B k
  if nTotal = 0 then none
  else some ((∑ k ∈ Finset.range nBatch, batchLoss k) / nTotal)

/-- `_train_one_epoch_labeled`: classification phase over the labeled stream
(dataset size `N`); identical loss bookkeeping. -/
def labeledEpochLoss (N B nBatch : ℕ) (batchLoss : ℕ → ℚ) : Option ℚ :=
  let nTotal : ℕ := ∑ k ∈ Finset.range nBatch, batchStream N B k
  if nTotal = 0 then none
  else some ((∑ k ∈ Finset.range nBatch, batchLoss k) / nTotal)

/-- `semisupervised_trainer.py` line 34: `n_labeled_batch =
len(train_labeled) // batch_size` (and `n_unlabeled_batch` is set equal to
it on line 35). -/
def nLabeledBatch (lenLabeled B : ℕ) : ℕ := lenLabeled / B

/-! ### Epoch-loss normalization of the single-objective trainers
(model_utils.py lines 103, 147, 197)

`_train_one_epoch` divides the accumulated running loss by
`len(train_loader.dataset)`; `_train_one_epoch_classifier` and
`_train_one_epoch_damic` divide it by `len(train_loader)`, the number of
batches. -/

/-- `_train_one_epoch`: `running_loss / len(train_loader.dataset)`. -/
def aeEpochLoss (datasetLen : ℕ) (batchLosses : List ℚ) : ℚ :=
  batchLosses.sum / datasetLen

/-- `_train_one_epoch_classifier`: `running_loss / len(train_loader)`. -/
def classifierEpochLoss (batchLosses : List ℚ) : ℚ :=
  batchLosses.sum / batchLosses.length

/-- `_train_one_epoch_damic`: `running_loss / len(train_loader)`. -/
def damicEpochLoss (batchLosses : List ℚ) : ℚ :=
  batchLosses.sum / batchLosses.length

/-- Modelled from the spec: the epoch loss normalized by the number of
samples processed (the sum of the batch sizes). -/
def sampleNormalizedLoss (batchSizes : List ℕ) (batchLosses : List ℚ) : ℚ :=
  batchLosses.sum / (batchSizes.sum : ℚ)

/-! ### Checkpoint failure diagnostic (model_utils.py 304-307 and 576-579)

Both training loops wrap the `torch.save` call in
`try: ... except FileNotFoundError as e: print(<diagnostic>); raise e`. -/

/-- The diagnostic printed by both loops before re-raising. -/
def fnfDiagnostic : String :=
  "Directory for logging experiments does not exist. Launch script from repository root."

/-! ### `train_network` epoch loop (model_utils.py 256-313)

`best_loss` starts at `np.inf` (modelled by `none`); after each epoch, if
`valid_loss < best_loss` a checkpoint `(epoch, valid_loss)` is written and
`best_loss` updated; a `FileNotFoundError` during the write aborts the run
with the diagnostic.  Validation losses are given as a list, one per epoch. -/

/-- `valid_loss < best_loss` where `none` stands for the initial `np.inf`. -/
def improvesLoss (v : ℚ) : Option ℚ → Bool
  | none => true
  | some b => decide (v < b)

/-- State of `train_network`'s model selection: current `best_loss` and the
sequence of checkpoints written so far (epoch, validation loss). -/
structure TNState where
  bestLoss : Option ℚ
  saved : List (ℕ × ℚ)
  deriving Repr, DecidableEq

/-- One epoch's checkpoint decision in `train_network`; `fails e = true`
means the `torch.save` at epoch `e` raises `FileNotFoundError`. -/
def tnStep (fails : ℕ → Bool) (e : ℕ) (v : ℚ) (s : TNState) :
    Except (String × ℕ) TNState :=
  if improvesLoss v s.bestLoss then
    if fails e then .error (fnfDiagnostic, e)
    else .ok ⟨some v, s.saved ++ [(e, v)]⟩
  else .ok s

/-- The epoch loop `for epoch in range(n_epochs)` of `train_network`: the
first argument is the number of remaining epochs, the second the current
epoch index; `losses e` is the validation loss computed by `_test` (or its
classifier variant) at epoch `e`. -/
def tnRunAux (fails : ℕ → Bool) (losses : ℕ → ℚ) :
    ℕ → ℕ → TNState → Except (String × ℕ) TNState
  | 0, _, s => .ok s
  | m + 1, e, s =>
    match tnStep fails e (losses e) s with
    | .error a => .error a
    | .ok s' => tnRunAux fails losses m (e + 1) s'

/-- `train_network` with a possibly failing checkpoint store. -/
def tnRunE (fails : ℕ → Bool) (nEpochs : ℕ) (losses : ℕ → ℚ) :
    Except (String × ℕ) TNState :=
  tnRunAux fails losses nEpochs 0 ⟨none, []⟩

/-- `train_network` when every checkpoint write succeeds. -/
def tnRun (nEpochs : ℕ) (losses : ℕ → ℚ) : TNState :=
  match tnRunE (fun _ => false) nEpochs losses with
  | .ok s => s
  | .error _ => ⟨none, []⟩

/-! ### `train_semi_supervised_network` epoch loop (model_utils.py 494-579)

Per epoch: both schedulers step, the unlabeled phase runs, the labeled phase
runs, validation runs producing `valid_f1`, then the checkpoint decision:
`if valid_f1 > best_f1:` save and `k = 0`; `elif k < patience: k += 1`;
`else: break`.  `best_f1` starts at `0.0` and `k` at `0`.  Validation F1
values are abstracted as a function of the epoch index. -/

/-- State of the semi-supervised trainer's model selection. -/
structure SSState where
  bestF1 : ℚ
  k : ℕ
  saved : List ℕ
  epochsRun : ℕ
  stopped : Bool
  deriving Repr, DecidableEq

/-- The initial state: `best_f1 = 0.0`, `k = 0`, nothing saved. -/
def ssInit : SSState := ⟨0, 0, [], 0, false⟩

/-- The checkpoint decision at the end of one semi-supervised epoch. -/
def ssDecide (patience : ℕ) (fails : ℕ → Bool) (e : ℕ) (v : ℚ) (s : SSState) :
    Except (String × ℕ) SSState :=
  if s.bestF1 < v then
    if fails e then .error (fnfDiagnostic, e)
    else .ok { s with bestF1 := v, k := 0, saved := s.saved ++ [e] }
  else if s.k < patience then .ok { s with k := s.k + 1 }
  else .ok { s with stopped := true }

/-- The epoch loop: each iteration runs the epoch (training and validation,
counted by `epochsRun`) and then the checkpoint decision; the loop ends when
`n_epochs` is exhausted or the decision breaks. -/
def ssRunAux (patience : ℕ) (fails : ℕ → Bool) (f1 : ℕ → ℚ) :
    ℕ → ℕ → SSState → Except (String × ℕ) SSState
  | 0, _, s => .ok s
  | m + 1, e, s =>
    match ssDecide patience fails e (f1 e) { s with epochsRun := s.epochsRun + 1 } with
    | .error a => .error a
    | .ok s' => if s'.stopped then .ok s' else ssRunAux patience fails f1 m (e + 1) s'

/-- `train_semi_supervised_network` with a possibly failing checkpoint store. -/
def ssRunE (patience nEpochs : ℕ) (fails : ℕ → Bool) (f1 : ℕ → ℚ) :
    Except (String × ℕ) SSState :=
  ssRunAux patience fails f1 nEpochs 0 ssInit

/-- `train_semi_supervised_network` when every checkpoint write succeeds. -/
def ssRun (patience nEpochs : ℕ) (f1 : ℕ → ℚ) : SSState :=
  match ssRunE patience nEpochs (fun _ => false) f1 with
  | .ok s => s
  | .error _ => ssInit

/-- The validation F1 sequence `[0.5, 0.6, 0.55, 0.55, 0.55, ...]` of the
model-selection example. -/
def exF1 (e : ℕ) : ℚ := if e = 0 then 1 / 2 else if e = 1 then 3 / 5 else 11 / 20

/-! ### Event trace of one semi-supervised epoch (model_utils.py 536-548)

The statement order of the epoch body: `unsup_scheduler.step()`,
`sup_scheduler.step()`, the unlabeled phase (`n_unlabeled_batch` optimizer
updates), the labeled phase (`n_labeled_batch` updates), then validation. -/

/-- Observable events of the semi-supervised epoch body. -/
inductive TrainEvent where
  | schedStepUnsup (epoch : ℕ)
  | schedStepSup (epoch : ℕ)
  | unsupUpdate (epoch batchIdx : ℕ)
  | supUpdate (epoch batchIdx : ℕ)
  | validate (epoch : ℕ)
  deriving Repr, DecidableEq

/-- The event trace of epoch `e` with `nU` unlabeled and `nL` labeled
batches, in the source's statement order. -/
def epochTrace (nU nL e : ℕ) : List TrainEvent :=
  [.schedStepUnsup e, .schedStepSup e]
    ++ (List.range nU).map (.unsupUpdate e)
    ++ (List.range nL).map (.supUpdate e)
    ++ [.validate e]

/-! ### Proof-support definitions

`tnNext` and `ssNext` name the successor state of one non-failing epoch
decision; lemmas below identify them with `tnStep` / `ssDecide` when the
checkpoint store never fails.  `bestLE` expresses "the tracked best loss is
at most `v`" for the `Option`-valued `best_loss` (where `none` is `np.inf`). -/

/-- Successor state of `train_network`'s checkpoint decision when the write
succeeds. -/
def tnNext (e : ℕ) (v : ℚ) (s : TNState) : TNState :=
  if improvesLoss v s.bestLoss then ⟨some v, s.saved ++ [(e, v)]⟩ else s

/-- Successor state of the semi-supervised checkpoint decision when the write
succeeds. -/
def ssNext (patience e : ℕ) (v : ℚ) (s : SSState) : SSState :=
  if s.bestF1 < v then { s with bestF1 := v, k := 0, saved := s.saved ++ [e] }
  else if s.k < patience then { s with k := s.k + 1 }
  else { s with stopped := true }

/-- `b ≤ v` for a best-so-far value `b : Option ℚ` (`none` = `np.inf`,
which is not `≤` any rational). -/
def bestLE (b : Option ℚ) (v : ℚ) : Prop := ∃ q, b = some q ∧ q ≤ v

/-- Validation-loss sequence `[3, 2, 5, 5, ...]` used to instantiate
`train_network` facts. -/
def exLosses (e : ℕ) : ℚ := if e = 0 then 3 else if e = 1 then 2 else 5

/-- A point-mass gating distribution concentrated on cluster `0`. -/
noncomputable def pointPreds (n : ℕ) : Fin n → Fin 17 → ℝ :=
  fun _ i => if i = 0 then 1 else 0

/-- Every expert reconstructs the constant value `10` (reconstruction MSE
`100` against the zero batch). -/
noncomputable def bigRecons (n : ℕ) : Fin 17 → Fin n → Fin 1 → ℝ := fun _ _ _ => 10

/-! ## Helper lemmas -/

/-- An element produced by `getLast?` belongs to the list. -/
lemma mem_of_getLast?_eq {α : Type} {l : List α} {a : α} (h : l.getLast? = some a) : a ∈ l := by
  have hx : a ∈ l.getLast? := by rw [h]; rfl
  obtain ⟨h0, rfl⟩ := List.mem_getLast?_eq_getLast hx
  exact List.getLast_mem h0

lemma tnStep_nofail (e : ℕ) (v : ℚ) (s : TNState) :
    tnStep (fun _ => false) e v s = .ok (tnNext e v s) := by
  unfold tnStep tnNext
  split <;> simp

lemma tnRunAux_nofail_succ (losses : ℕ → ℚ) (m e : ℕ) (s : TNState) :
    tnRunAux (fun _ => false) losses (m + 1) e s =
      tnRunAux (fun _ => false) losses m (e + 1) (tnNext e (losses e) s) := by
  conv_lhs => rw [tnRunAux]
  rw [tnStep_nofail]

lemma tnRunAux_total (losses : ℕ → ℚ) :
    ∀ (m e : ℕ) (s : TNState), ∃ t, tnRunAux (fun _ => false) losses m e s = .ok t := by
  intro m
  induction m with
  | zero => exact fun e s => ⟨s, rfl⟩
  | succ m ih =>
    intro e s
    rw [tnRunAux_nofail_succ]
    exact ih (e + 1) _

lemma tnRunAux_saved_prefix (losses : ℕ → ℚ) :
    ∀ (m e : ℕ) (s t : TNState),
      tnRunAux (fun _ => false) losses m e s = .ok t →
      ∃ ext, t.saved = s.saved ++ ext := by
  intro m
  induction m with
  | zero =>
    intro e s t h
    cases h
    exact ⟨[], by simp⟩
  | succ m ih =>
    intro e s t h
    rw [tnRunAux_nofail_succ] at h
    obtain ⟨ext, hext⟩ := ih (e + 1) _ t h
    unfold tnNext at hext
    split_ifs at hext with h1
    · exact ⟨(e, losses e) :: ext, by simpa using hext⟩
    · exact ⟨ext, hext⟩

lemma improvesLoss_none (v : ℚ) : improvesLoss v none = true := rfl

lemma improvesLoss_some (v b : ℚ) : improvesLoss v (some b) = true ↔ v < b := by
  simp [improvesLoss]

/-- Invariant of `train_network`'s model-selection loop: the saved checkpoint
metrics are strictly decreasing, every checkpoint records the validation loss
of its epoch, `best_loss` is the metric of the last checkpoint, and
`best_loss` is a lower bound of every validation loss seen so far. -/
lemma tnRunAux_inv (losses : ℕ → ℚ) :
    ∀ (m e : ℕ) (s t : TNState),
      tnRunAux (fun _ => false) losses m e s = .ok t →
      List.Chain' (fun a b : ℕ × ℚ => b.2 < a.2) s.saved →
      (∀ p ∈ s.saved, p.1 < e ∧ p.2 = losses p.1) →
      ((s.saved = [] ∧ s.bestLoss = none) ∨
        (∃ l, s.saved.getLast? = some l ∧ s.bestLoss = some l.2)) →
      (∀ j < e, bestLE s.bestLoss (losses j)) →
      List.Chain' (fun a b : ℕ × ℚ => b.2 < a.2) t.saved ∧
      (∀ p ∈ t.saved, p.1 < e + m ∧ p.2 = losses p.1) ∧
      ((t.saved = [] ∧ t.bestLoss = none) ∨
        (∃ l, t.saved.getLast? = some l ∧ t.bestLoss = some l.2)) ∧
      (∀ j < e + m, bestLE t.bestLoss (losses j)) := by
  intro m
  induction m with
  | zero =>
    intro e s t h hch hmem hbest hmin
    cases h
    exact ⟨hch, by simpa using hmem, hbest, by simpa using hmin⟩
  | succ m ih =>
    intro e s t h hch hmem hbest hmin
    rw [tnRunAux_nofail_succ] at h
    have hch' : List.Chain' (fun a b : ℕ × ℚ => b.2 < a.2) (tnNext e (losses e) s).saved := by
      unfold tnNext
      split_ifs with h1
      · rw [List.chain'_append]
        refine ⟨hch, List.chain'_singleton _, ?_⟩
        intro x hx y hy
        simp only [List.head?_cons, Option.mem_def, Option.some.injEq] at hy
        subst hy
        rcases hbest with ⟨hsnil, -⟩ | ⟨l, hl, hbl⟩
        · simp [hsnil] at hx
        · rw [Option.mem_def, hl, Option.some.injEq] at hx
          subst hx
          rw [hbl, improvesLoss_some] at h1
          exact h1
      · exact hch
    have hmem' : ∀ p ∈ (tnNext e (losses e) s).saved, p.1 < e + 1 ∧ p.2 = losses p.1 := by
      unfold tnNext
      split_ifs with h1
      · intro p hp
        rcases List.mem_append.1 hp with hp | hp
        · exact ⟨Nat.lt_succ_of_lt (hmem p hp).1, (hmem p hp).2⟩
        · simp only [List.mem_singleton] at hp
          subst hp
          exact ⟨Nat.lt_succ_self e, rfl⟩
      · intro p hp
        exact ⟨Nat.lt_succ_of_lt (hmem p hp).1, (hmem p hp).2⟩
    have hbest' : ((tnNext e (losses e) s).saved = [] ∧ (tnNext e (losses e) s).bestLoss = none) ∨
        (∃ l, (tnNext e (losses e) s).saved.getLast? = some l ∧
          (tnNext e (losses e) s).bestLoss = some l.2) := by
      unfold tnNext
      split_ifs with h1
      · right
        exact ⟨(e, losses e), List.getLast?_concat _, rfl⟩
      · exact hbest
    have hmin' : ∀ j < e + 1, bestLE (tnNext e (losses e) s).bestLoss (losses j) := by
      unfold tnNext
      split_ifs with h1
      · intro j hj
        rcases Nat.lt_succ_iff_lt_or_eq.1 hj with hj2 | rfl
        · obtain ⟨q, hq, hle⟩ := hmin j hj2
          rw [hq, improvesLoss_some] at h1
          exact ⟨losses e, rfl, le_trans (le_of_lt h1) hle⟩
        · exact ⟨losses j, rfl, le_refl _⟩
      · intro j hj
        have hbs : ∃ b, s.bestLoss = some b ∧ b ≤ losses e := by
          cases hb : s.bestLoss with
          | none => rw [hb] at h1; exact absurd (improvesLoss_none (losses e)) h1
          | some b =>
            rw [hb, improvesLoss_some] at h1
            exact ⟨b, rfl, not_lt.1 h1⟩
        rcases Nat.lt_succ_iff_lt_or_eq.1 hj with hj2 | rfl
        · exact hmin j hj2
        · obtain ⟨b, hb, hle⟩ := hbs
          exact ⟨b, hb, hle⟩
    have hres := ih (e + 1) _ t h hch' hmem' hbest' hmin'
    refine ⟨hres.1, ?_, hres.2.2.1, ?_⟩
    · intro p hp
      refine ⟨?_, (hres.2.1 p hp).2⟩
      have := (hres.2.1 p hp).1
      omega
    · intro j hj
      exact hres.2.2.2 j (by omega)

lemma ssDecide_nofail (p e : ℕ) (v : ℚ) (s : SSState) :
    ssDecide p (fun _ => false) e v s = .ok (ssNext p e v s) := by
  unfold ssDecide ssNext
  split <;> [skip; split] <;> simp

lemma ssRunAux_nofail_succ (p : ℕ) (f1 : ℕ → ℚ) (m e : ℕ) (s : SSState) :
    ssRunAux p (fun _ => false) f1 (m + 1) e s =
      (if (ssNext p e (f1 e) { s with epochsRun := s.epochsRun + 1 }).stopped then
        .ok (ssNext p e (f1 e) { s with epochsRun := s.epochsRun + 1 })
      else ssRunAux p (fun _ => false) f1 m (e + 1)
        (ssNext p e (f1 e) { s with epochsRun := s.epochsRun + 1 })) := by
  conv_lhs => rw [ssRunAux]
  rw [ssDecide_nofail]

lemma ssRunAux_total (p : ℕ) (f1 : ℕ → ℚ) :
    ∀ (m e : ℕ) (s : SSState), ∃ t, ssRunAux p (fun _ => false) f1 m e s = .ok t := by
  intro m
  induction m with
  | zero => exact fun e s => ⟨s, rfl⟩
  | succ m ih =>
    intro e s
    rw [ssRunAux_nofail_succ]
    split
    · exact ⟨_, rfl⟩
    · exact ih (e + 1) _

/-- Invariant of the semi-supervised model-selection loop: saved checkpoint
epochs have strictly increasing validation F1, all lie among the epochs run,
`best_f1` is the F1 of the last checkpoint (or the initial `0.0`), and it
bounds the F1 of every epoch run so far. -/
lemma ssRunAux_inv (p : ℕ) (f1 : ℕ → ℚ) :
    ∀ (m e : ℕ) (s t : SSState),
      ssRunAux p (fun _ => false) f1 m e s = .ok t →
      s.epochsRun = e →
      List.Chain' (fun a b : ℕ => f1 a < f1 b) s.saved →
      (∀ j ∈ s.saved, j < e) →
      ((s.saved = [] ∧ s.bestF1 = 0) ∨
        (∃ a, s.saved.getLast? = some a ∧ s.bestF1 = f1 a)) →
      (∀ j < e, f1 j ≤ s.bestF1) →
      List.Chain' (fun a b : ℕ => f1 a < f1 b) t.saved ∧
      (∀ j ∈ t.saved, j < t.epochsRun) ∧
      ((t.saved = [] ∧ t.bestF1 = 0) ∨
        (∃ a, t.saved.getLast? = some a ∧ t.bestF1 = f1 a)) ∧
      (∀ j < t.epochsRun, f1 j ≤ t.bestF1) := by
  intro m
  induction m with
  | zero =>
    intro e s t h he hch hmem hbest hmin
    cases h
    exact ⟨hch, fun j hj => he ▸ hmem j hj, hbest, fun j hj => hmin j (he ▸ hj)⟩
  | succ m ih =>
    intro e s t h he hch hmem hbest hmin
    rw [ssRunAux_nofail_succ] at h
    set s1 : SSState := { s with epochsRun := s.epochsRun + 1 } with hs1
    set s' : SSState := ssNext p e (f1 e) s1 with hs'
    have hrun' : s'.epochsRun = e + 1 := by
      rw [hs', ssNext]
      split_ifs <;> simp [hs1, he]
    have hch' : List.Chain' (fun a b : ℕ => f1 a < f1 b) s'.saved := by
      rw [hs', ssNext]
      split_ifs with h1 h2
      · simp only [hs1]
        rw [List.chain'_append]
        refine ⟨hch, List.chain'_singleton _, ?_⟩
        intro x hx y hy
        simp only [List.head?_cons, Option.mem_def, Option.some.injEq] at hy
        subst hy
        rcases hbest with ⟨hsnil, -⟩ | ⟨a, ha, hba⟩
        · simp [hsnil] at hx
        · rw [Option.mem_def, ha, Option.some.injEq] at hx
          subst hx
          rw [hba] at h1
          exact h1
      · exact hch
      · exact hch
    have hmem' : ∀ j ∈ s'.saved, j < e + 1 := by
      rw [hs', ssNext]
      split_ifs with h1 h2
      · intro j hj
        simp only [hs1] at hj
        rcases List.mem_append.1 hj with hj | hj
        · exact Nat.lt_succ_of_lt (hmem j hj)
        · simp only [List.mem_singleton] at hj
          subst hj
          exact Nat.lt_succ_self j
      · exact fun j hj => Nat.lt_succ_of_lt (hmem j hj)
      · exact fun j hj => Nat.lt_succ_of_lt (hmem j hj)
    have hbest' : ((s'.saved = [] ∧ s'.bestF1 = 0) ∨
        (∃ a, s'.saved.getLast? = some a ∧ s'.bestF1 = f1 a)) := by
      rw [hs', ssNext]
      split_ifs with h1 h2
      · right
        exact ⟨e, List.getLast?_concat _, rfl⟩
      · exact hbest
      · exact hbest
    have hmin' : ∀ j < e + 1, f1 j ≤ s'.bestF1 := by
      rw [hs', ssNext]
      split_ifs with h1 h2
      · intro j hj
        rcases Nat.lt_succ_iff_lt_or_eq.1 hj with hj2 | rfl
        · exact le_trans (hmin j hj2) (le_of_lt h1)
        · exact le_refl _
      all_goals
        intro j hj
        rcases Nat.lt_succ_iff_lt_or_eq.1 hj with hj2 | rfl
        · exact hmin j hj2
        · exact not_lt.1 h1
    split at h
    · have ht : s' = t := by injection h
      subst ht
      exact ⟨hch', hrun' ▸ hmem', hbest', hrun' ▸ hmin'⟩
    · exact ih (e + 1) s' t h hrun' hch' hmem' hbest' hmin'

lemma tnStep_error_elim (fails : ℕ → Bool) (e : ℕ) (v : ℚ) (s : TNState)
    (msg : String) (ep : ℕ) (h : tnStep fails e v s = .error (msg, ep)) :
    msg = fnfDiagnostic ∧ fails ep = true := by
  unfold tnStep at h
  split_ifs at h with h1 h2
  have hpair : (fnfDiagnostic, e) = (msg, ep) := Except.error.inj h
  have h3 : fnfDiagnostic = msg := congrArg Prod.fst hpair
  have h4 : e = ep := congrArg Prod.snd hpair
  exact ⟨h3.symm, h4 ▸ h2⟩

lemma tnRunAux_error_elim (fails : ℕ → Bool) (losses : ℕ → ℚ) :
    ∀ (m e : ℕ) (s : TNState) (msg : String) (ep : ℕ),
      tnRunAux fails losses m e s = .error (msg, ep) →
      msg = fnfDiagnostic ∧ fails ep = true := by
  intro m
  induction m with
  | zero => intro e s msg ep h; exact absurd h (by unfold tnRunAux; simp)
  | succ m ih =>
    intro e s msg ep h
    rw [tnRunAux] at h
    cases hstep : tnStep fails e (losses e) s with
    | error a =>
      rw [hstep] at h
      simp only at h
      have ha : a = (msg, ep) := Except.error.inj h
      exact tnStep_error_elim fails e (losses e) s msg ep (ha ▸ hstep)
    | ok s2 =>
      rw [hstep] at h
      simp only at h
      exact ih (e + 1) s2 msg ep h

lemma tnRunAux_ok_saved (fails : ℕ → Bool) (losses : ℕ → ℚ) :
    ∀ (m e : ℕ) (s t : TNState),
      tnRunAux fails losses m e s = .ok t →
      (∀ q ∈ s.saved, fails q.1 = false) →
      ∀ q ∈ t.saved, fails q.1 = false := by
  intro m
  induction m with
  | zero => intro e s t h hs; cases h; exact hs
  | succ m ih =>
    intro e s t h hs
    rw [tnRunAux] at h
    cases hstep : tnStep fails e (losses e) s with
    | error a => rw [hstep] at h; exact absurd h (by simp)
    | ok s2 =>
      rw [hstep] at h
      simp only at h
      refine ih (e + 1) s2 t h ?_
      unfold tnStep at hstep
      split_ifs at hstep with h1 h2
      · have heq := Except.ok.inj hstep
        intro q hq
        rw [← heq] at hq
        simp only [List.mem_append, List.mem_singleton] at hq
        rcases hq with hq | hq
        · exact hs q hq
        · subst hq
          simpa using h2
      · have heq := Except.ok.inj hstep
        rw [← heq]
        exact hs

lemma ssDecide_error_elim (p : ℕ) (fails : ℕ → Bool) (e : ℕ) (v : ℚ) (s : SSState)
    (msg : String) (ep : ℕ) (h : ssDecide p fails e v s = .error (msg, ep)) :
    msg = fnfDiagnostic ∧ fails ep = true := by
  unfold ssDecide at h
  split_ifs at h with h1 h2 h3
  have hpair : (fnfDiagnostic, e) = (msg, ep) := Except.error.inj h
  have h4 : fnfDiagnostic = msg := congrArg Prod.fst hpair
  have h5 : e = ep := congrArg Prod.snd hpair
  exact ⟨h4.symm, h5 ▸ h2⟩

lemma ssRunAux_error_elim (p : ℕ) (fails : ℕ → Bool) (f1 : ℕ → ℚ) :
    ∀ (m e : ℕ) (s : SSState) (msg : String) (ep : ℕ),
      ssRunAux p fails f1 m e s = .error (msg, ep) →
      msg = fnfDiagnostic ∧ fails ep = true := by
  intro m
  induction m with
  | zero => intro e s msg ep h; exact absurd h (by unfold ssRunAux; simp)
  | succ m ih =>
    intro e s msg ep h
    rw [ssRunAux] at h
    cases hstep : ssDecide p fails e (f1 e) { s with epochsRun := s.epochsRun + 1 } with
    | error a =>
      rw [hstep] at h
      simp only at h
      have ha : a = (msg, ep) := Except.error.inj h
      exact ssDecide_error_elim p fails e (f1 e) _ msg ep (ha ▸ hstep)
    | ok s2 =>
      rw [hstep] at h
      simp only at h
      split at h
      · exact absurd h (by simp)
      · exact ih (e + 1) s2 msg ep h

lemma ssDecide_ok_saved (p : ℕ) (fails : ℕ → Bool) (e : ℕ) (v : ℚ) (s s2 : SSState)
    (h : ssDecide p fails e v s = .ok s2)
    (hs : ∀ j ∈ s.saved, fails j = false) :
    ∀ j ∈ s2.saved, fails j = false := by
  unfold ssDecide at h
  split_ifs at h with h1 h2 h3
  · have heq := Except.ok.inj h
    intro j hj
    rw [← heq] at hj
    simp only [List.mem_append, List.mem_singleton] at hj
    rcases hj with hj | hj
    · exact hs j hj
    · subst hj
      simpa using h2
  · have heq := Except.ok.inj h
    intro j hj
    rw [← heq] at hj
    exact hs j hj
  · have heq := Except.ok.inj h
    intro j hj
    rw [← heq] at hj
    exact hs j hj

lemma ssRunAux_ok_saved (p : ℕ) (fails : ℕ → Bool) (f1 : ℕ → ℚ) :
    ∀ (m e : ℕ) (s t : SSState),
      ssRunAux p fails f1 m e s = .ok t →
      (∀ j ∈ s.saved, fails j = false) →
      ∀ j ∈ t.saved, fails j = false := by
  intro m
  induction m with
  | zero => intro e s t h hs; cases h; exact hs
  | succ m ih =>
    intro e s t h hs
    rw [ssRunAux] at h
    cases hstep : ssDecide p fails e (f1 e) { s with epochsRun := s.epochsRun + 1 } with
    | error a => rw [hstep] at h; exact absurd h (by simp)
    | ok s2 =>
      rw [hstep] at h
      simp only at h
      have hsv2 : ∀ j ∈ s2.saved, fails j = false :=
        ssDecide_ok_saved p fails e (f1 e) _ s2 hstep (fun j hj => hs j hj)
      split at h
      · have ht : s2 = t := Except.ok.inj h
        exact ht ▸ hsv2
      · exact ih (e + 1) s2 t h hsv2

lemma sum17_uniform (X : ℝ) : ∑ _i : Fin 17, (1 / 17 : ℝ) * X = X := by
  rw [Finset.sum_const, Finset.card_univ, Fintype.card_fin, nsmul_eq_mul]
  ring

/-- With the uniform gate, a constant per-expert MSE `c` gives total
likelihood `exp (-c / 2)`. -/
lemma uniform_likelihood (n : ℕ) (mse : Fin 17 → ℝ) (c : ℝ) (hc : ∀ i, mse i = c)
    (s : Fin n) :
    damicTotalLikelihood n (uniformPreds n) mse s = Real.exp (-c / 2) := by
  unfold damicTotalLikelihood uniformPreds
  have hcongr : ∀ i : Fin 17, (1 / 17 : ℝ) * Real.exp (-(mse i) / 2)
      = (1 / 17 : ℝ) * Real.exp (-c / 2) := by
    intro i
    rw [hc i]
  rw [Finset.sum_congr rfl (fun i _ => hcongr i)]
  exact sum17_uniform _

lemma mse_const_base : ∀ i : Fin 17,
    mseLossMean 1 1 (zeroBatch 1) (constRecons 1 i) = 4 := by
  intro i
  unfold mseLossMean zeroBatch constRecons
  rw [Fin.sum_univ_one, Fin.sum_univ_one]
  norm_num

lemma mse_split : ∀ i : Fin 17,
    mseLossMean 2 1 (zeroBatch 2) (splitRecons i) = 2 := by
  intro i
  unfold mseLossMean zeroBatch splitRecons
  rw [Fin.sum_univ_two]
  norm_num [Fin.sum_univ_one]

lemma mse_big : ∀ i : Fin 17,
    mseLossMean 1 1 (zeroBatch 1) (bigRecons 1 i) = 100 := by
  intro i
  unfold mseLossMean zeroBatch bigRecons
  rw [Fin.sum_univ_one, Fin.sum_univ_one]
  norm_num

lemma exp_fifty_big : (10:ℝ) ^ 12 < Real.exp 50 := by
  have h1 : (2.7:ℝ) < Real.exp 1 := lt_trans (by norm_num) Real.exp_one_gt_d9
  have h2 : (2.7:ℝ) ^ 50 ≤ (Real.exp 1) ^ 50 :=
    pow_le_pow_left₀ (by norm_num) (le_of_lt h1) 50
  have h3 : Real.exp 50 = (Real.exp 1) ^ 50 := by
    rw [← Real.exp_nat_mul]
    norm_num
  have h4 : (10:ℝ) ^ 12 < (2.7:ℝ) ^ 50 := by norm_num
  rw [h3]
  exact lt_of_lt_of_le h4 h2

lemma exp_neg_fifty_small : Real.exp (-50) < 1 / 10 ^ 12 := by
  rw [Real.exp_neg, one_div]
  exact inv_strictAnti₀ (by positivity) exp_fifty_big

/-! ## Claim theorems -/

/-- C1: the claim is violated by the code — a code bug.  The claim states the
backpropagated DAMIC loss is `−Σ_samples log Σ_i gate_i · exp(−MSE_i/2)` with
`MSE_i` the per-sample MSE, reducing (single active gate) to `+Σ MSE/2`.  The
code backpropagates the sum of logs WITHOUT the negation, and its `MSE_i` is
the batch-mean MSE broadcast to every sample.  On a one-sample batch with
uniform gate and constant reconstruction error `4` the code's loss is `−2`
while the claimed formula gives `+2`; with a point-mass gate the code's loss
is `−(n·MSE)/2`, the negation of the claimed reduction; and on a two-sample
batch the code's per-sample likelihood uses the batch-mean MSE
(`exp(−1)`), not the per-sample MSE (`exp 0 = 1`). -/
theorem damic_mixture_loss_code_bug :
    damicBatchLoss 1 1 (uniformPreds 1) (zeroBatch 1) (constRecons 1) = -2 ∧
    damicSpecLoss 1 1 (uniformPreds 1) (zeroBatch 1) (constRecons 1) = 2 ∧
    damicBatchLoss 1 1 (uniformPreds 1) (zeroBatch 1) (constRecons 1) ≠
      damicSpecLoss 1 1 (uniformPreds 1) (zeroBatch 1) (constRecons 1) ∧
    (∀ (n : ℕ) (mse : Fin 17 → ℝ),
      damicLossFromMSE n (pointPreds n) mse = -((n : ℝ) * mse 0) / 2) ∧
    damicTotalLikelihood 2 (uniformPreds 2)
      (fun i => mseLossMean 2 1 (zeroBatch 2) (splitRecons i)) 0 = Real.exp (-1) ∧
    specTotalLikelihood 2 1 (uniformPreds 2) (zeroBatch 2) splitRecons 0 = 1 ∧
    Real.exp (-1) ≠ 1 := by
  have hcode : damicBatchLoss 1 1 (uniformPreds 1) (zeroBatch 1) (constRecons 1) = -2 := by
    unfold damicBatchLoss damicLossFromMSE
    rw [Fin.sum_univ_one, uniform_likelihood 1 _ 4 mse_const_base, Real.log_exp]
    norm_num
  have hspec : damicSpecLoss 1 1 (uniformPreds 1) (zeroBatch 1) (constRecons 1) = 2 := by
    unfold damicSpecLoss specTotalLikelihood specPerSampleMSE zeroBatch constRecons uniformPreds
    rw [Fin.sum_univ_one]
    have h4 : ∀ i : Fin 17,
        (1 / 17 : ℝ) * Real.exp (-((∑ _j : Fin 1, ((0:ℝ) - 2) ^ 2) / (1:ℕ)) / 2)
        = (1 / 17 : ℝ) * Real.exp (-2) := by
      intro i
      norm_num [Fin.sum_univ_one]
    rw [Finset.sum_congr rfl (fun i _ => h4 i), sum17_uniform, Real.log_exp]
    norm_num
  have hexp1 : Real.exp (-1) ≠ 1 := by
    have h := Real.exp_lt_exp.2 (show (-1:ℝ) < 0 by norm_num)
    rw [Real.exp_zero] at h
    exact ne_of_lt h
  refine ⟨hcode, hspec, by rw [hcode, hspec]; norm_num, ?_, ?_, ?_, hexp1⟩
  · intro n mse
    unfold damicLossFromMSE damicTotalLikelihood pointPreds
    have hsum : ∀ s : Fin n,
        ∑ i : Fin 17, (if i = 0 then (1:ℝ) else 0) * Real.exp (-(mse i) / 2)
          = Real.exp (-(mse 0) / 2) := by
      intro s
      simp only [ite_mul, one_mul, zero_mul]
      simp [Finset.sum_ite_eq']
    rw [Finset.sum_congr rfl (fun s _ => by rw [hsum s, Real.log_exp])]
    rw [Finset.sum_const, Finset.card_univ, Fintype.card_fin, nsmul_eq_mul]
    ring
  · rw [uniform_likelihood 2 _ 2 mse_split]
    norm_num
  · unfold specTotalLikelihood specPerSampleMSE zeroBatch splitRecons uniformPreds
    have h0 : ∀ i : Fin 17,
        (1 / 17 : ℝ) * Real.exp
          (-((∑ _j : Fin 1, ((0:ℝ) - if (0 : Fin 2) = 0 then 0 else 2) ^ 2) / (1:ℕ)) / 2)
        = (1 / 17 : ℝ) * 1 := by
      intro i
      norm_num [Fin.sum_univ_one]
    rw [Finset.sum_congr rfl (fun i _ => h0 i), sum17_uniform]

/-- C4 counterexample: the claim that the total per-sample likelihood is
floored at `1e-12` before the log is false of the code.  With a uniform gate
and per-expert MSE `100` the total likelihood is `exp (-50) < 1e-12`, and the
code's loss (`log` of the raw likelihood, `= -50`) differs from the floored
loss the claim describes (`log 1e-12 > -28`). -/
theorem damic_no_floor_counterexample :
    damicTotalLikelihood 1 (uniformPreds 1)
        (fun i => mseLossMean 1 1 (zeroBatch 1) (bigRecons 1 i)) 0 < 1 / 10 ^ 12 ∧
    damicBatchLoss 1 1 (uniformPreds 1) (zeroBatch 1) (bigRecons 1) = -50 ∧
    damicFlooredLoss 1 1 (uniformPreds 1) (zeroBatch 1) (bigRecons 1) =
      Real.log (1 / 10 ^ 12) ∧
    damicBatchLoss 1 1 (uniformPreds 1) (zeroBatch 1) (bigRecons 1) ≠
      damicFlooredLoss 1 1 (uniformPreds 1) (zeroBatch 1) (bigRecons 1) := by
  have hlik : damicTotalLikelihood 1 (uniformPreds 1)
      (fun i => mseLossMean 1 1 (zeroBatch 1) (bigRecons 1 i)) 0 = Real.exp (-50) := by
    rw [uniform_likelihood 1 _ 100 mse_big]
    norm_num
  have hsmall : damicTotalLikelihood 1 (uniformPreds 1)
      (fun i => mseLossMean 1 1 (zeroBatch 1) (bigRecons 1 i)) 0 < 1 / 10 ^ 12 := by
    rw [hlik]; exact exp_neg_fifty_small
  have hloss : damicBatchLoss 1 1 (uniformPreds 1) (zeroBatch 1) (bigRecons 1) = -50 := by
    unfold damicBatchLoss damicLossFromMSE
    rw [Fin.sum_univ_one, hlik, Real.log_exp]
  have hfloor : damicFlooredLoss 1 1 (uniformPreds 1) (zeroBatch 1) (bigRecons 1) =
      Real.log (1 / 10 ^ 12) := by
    unfold damicFlooredLoss
    rw [Fin.sum_univ_one, hlik, max_eq_left (le_of_lt exp_neg_fifty_small)]
  refine ⟨hsmall, hloss, hfloor, ?_⟩
  rw [hloss, hfloor]
  have hlt : Real.log (Real.exp (-50)) < Real.log (1 / 10 ^ 12) :=
    Real.log_lt_log (Real.exp_pos _) exp_neg_fifty_small
  rw [Real.log_exp] at hlt
  exact ne_of_lt hlt

/-- C4 amended: the code applies NO floor — the log is taken of the raw total
per-sample likelihood, which (over the reals, with a probability-vector gate)
stays strictly positive but falls below every fixed positive threshold `ε`
for large enough reconstruction MSE, so the loss is exactly `log` of that raw
value and drops below `log ε`. -/
theorem damic_loss_unfloored (ε : ℝ) (hε : 0 < ε) :
    ∃ mse : Fin 17 → ℝ,
      0 < damicTotalLikelihood 1 (uniformPreds 1) mse 0 ∧
      damicTotalLikelihood 1 (uniformPreds 1) mse 0 < ε ∧
      damicLossFromMSE 1 (uniformPreds 1) mse =
        Real.log (damicTotalLikelihood 1 (uniformPreds 1) mse 0) ∧
      damicLossFromMSE 1 (uniformPreds 1) mse < Real.log ε := by
  refine ⟨fun _ => 2 * (1 - Real.log ε), ?_⟩
  have hlik : damicTotalLikelihood 1 (uniformPreds 1) (fun _ => 2 * (1 - Real.log ε)) 0 =
      Real.exp (Real.log ε - 1) := by
    rw [uniform_likelihood 1 _ (2 * (1 - Real.log ε)) (fun i => rfl)]
    ring_nf
  have hlt : Real.exp (Real.log ε - 1) < ε := by
    have h := Real.exp_lt_exp.2 (show Real.log ε - 1 < Real.log ε by norm_num)
    rw [Real.exp_log hε] at h
    exact h
  have hloss : damicLossFromMSE 1 (uniformPreds 1) (fun _ => 2 * (1 - Real.log ε)) =
      Real.log (damicTotalLikelihood 1 (uniformPreds 1) (fun _ => 2 * (1 - Real.log ε)) 0) := by
    unfold damicLossFromMSE
    rw [Fin.sum_univ_one]
  refine ⟨by rw [hlik]; exact Real.exp_pos _, by rw [hlik]; exact hlt, hloss, ?_⟩
  rw [hloss, hlik, Real.log_exp]
  norm_num

/-- C4 witness: the unfloored-likelihood theorem instantiated at `ε = 1`. -/
theorem damic_loss_unfloored_witness :
    ∃ mse : Fin 17 → ℝ,
      0 < damicTotalLikelihood 1 (uniformPreds 1) mse 0 ∧
      damicTotalLikelihood 1 (uniformPreds 1) mse 0 < 1 ∧
      damicLossFromMSE 1 (uniformPreds 1) mse =
        Real.log (damicTotalLikelihood 1 (uniformPreds 1) mse 0) ∧
      damicLossFromMSE 1 (uniformPreds 1) mse < Real.log 1 :=
  damic_loss_unfloored 1 (by norm_num)

/-- C3 counterexample: the claim that every out-of-range label collapses to
class 16 is false — the code maps label `−5` to class `0`, not `16`
(`labels[labels < 0] = 0`). -/
theorem clamp_neg_label_counterexample : clampLabel (-5) = 0 ∧ clampLabel (-5) ≠ 16 := by
  decide

/-- C3 amended: the label transformation clamps into `[0, 16]` from both
sides — labels below `0` collapse to class `0`, labels above `16` collapse to
class `16`: `−5 ↦ 0`, `99 ↦ 16`, `7 ↦ 7`. -/
theorem clampLabel_clamps_into_range :
    (∀ l : ℤ, clampLabel l = max 0 (min l 16)) ∧
    clampLabel (-5) = 0 ∧ clampLabel 99 = 16 ∧ clampLabel 7 = 7 := by
  refine ⟨?_, by decide, by decide, by decide⟩
  intro l
  unfold clampLabel clampLow
  split_ifs <;> omega

/-- C7: within one epoch of the semi-supervised trainer the event trace is
exactly: both scheduler steps first, then a block consisting only of
unlabeled-phase updates, then a block consisting only of labeled-phase
updates, then validation — so all unlabeled updates precede all labeled
updates, which precede validation, and the phases never interleave. -/
theorem ss_epoch_phase_order (nU nL e : ℕ) :
    ∃ uB sB : List TrainEvent,
      epochTrace nU nL e =
        [.schedStepUnsup e, .schedStepSup e] ++ uB ++ sB ++ [.validate e] ∧
      uB.length = nU ∧ sB.length = nL ∧
      (∀ x ∈ uB, ∃ b, b < nU ∧ x = .unsupUpdate e b) ∧
      (∀ x ∈ sB, ∃ b, b < nL ∧ x = .supUpdate e b) := by
  refine ⟨(List.range nU).map (.unsupUpdate e), (List.range nL).map (.supUpdate e),
    ?_, by simp, by simp, ?_, ?_⟩
  · simp [epochTrace]
  · intro x hx
    rcases List.mem_map.1 hx with ⟨b, hb, rfl⟩
    exact ⟨b, List.mem_range.1 hb, rfl⟩
  · intro x hx
    rcases List.mem_map.1 hx with ⟨b, hb, rfl⟩
    exact ⟨b, List.mem_range.1 hb, rfl⟩

/-- C2 counterexample: with validation F1 sequence `[0.5, 0.6, 0.55, 0.55,
0.55, ...]` and `patience = 2`, the loop runs 5 epochs (indices 0-4) before
stopping — not 4, as "training stops after step 3" would require: the counter
reaching the patience limit (end of epoch 3) does not stop the loop; the break
happens only at epoch 4's decision. -/
theorem ss_early_stop_step_counterexample :
    (ssRun 2 10 exF1).saved = [0, 1] ∧
    (ssRun 2 10 exF1).epochsRun = 5 ∧
    (ssRun 2 10 exF1).epochsRun ≠ 4 := by
  norm_num [ssRun, ssRunE, ssRunAux, ssDecide, ssInit, exF1]

/-- C2 amended: on strict F1 improvement the state is persisted and the
counter resets; on non-improvement with the counter below patience it
increments; on non-improvement with the counter already at patience the loop
stops (that epoch still completes its training and validation).  For the F1
sequence `[0.5, 0.6, 0.55, 0.55, 0.55, ...]` with `patience = 2`, checkpoints
are written at steps 0 and 1 only and training stops during step 4 (5 epochs
run), not after step 3. -/
theorem ss_checkpoint_patience_policy :
    (∀ (p e : ℕ) (v : ℚ) (s : SSState), s.bestF1 < v →
        ssDecide p (fun _ => false) e v s =
          .ok { s with bestF1 := v, k := 0, saved := s.saved ++ [e] }) ∧
    (∀ (p e : ℕ) (v : ℚ) (s : SSState), ¬ s.bestF1 < v → s.k < p →
        ssDecide p (fun _ => false) e v s = .ok { s with k := s.k + 1 }) ∧
    (∀ (p e : ℕ) (v : ℚ) (s : SSState), ¬ s.bestF1 < v → ¬ s.k < p →
        ssDecide p (fun _ => false) e v s = .ok { s with stopped := true }) ∧
    (ssRun 2 10 exF1).saved = [0, 1] ∧ (ssRun 2 10 exF1).stopped = true ∧
    (ssRun 2 10 exF1).epochsRun = 5 ∧ (ssRun 2 10 exF1).k = 2 := by
  refine ⟨?_, ?_, ?_, ?_⟩
  · intro p e v s h
    simp [ssDecide, h]
  · intro p e v s h hk
    simp [ssDecide, h, hk]
  · intro p e v s h hk
    simp [ssDecide, h, hk]
  · norm_num [ssRun, ssRunE, ssRunAux, ssDecide, ssInit, exF1]

/-- C2 witness: the decision rule applied at a concrete non-improving state
below patience increments the counter. -/
theorem ss_checkpoint_patience_policy_witness :
    ssDecide 2 (fun _ => false) 3 (11 / 20 : ℚ) ⟨3 / 5, 0, [0, 1], 3, false⟩ =
      .ok ⟨3 / 5, 1, [0, 1], 3, false⟩ :=
  ss_checkpoint_patience_policy.2.1 2 3 (11 / 20) ⟨3 / 5, 0, [0, 1], 3, false⟩
    (by norm_num) (by norm_num)

/-- C5 counterexample: the claim that every single-objective epoch routine
normalizes by the sample count is false — on two batches of two samples each
contributing summed loss `1`, the classifier and DAMIC routines report
`running_loss / len(train_loader) = 1` (batch count) while sample
normalization gives `1/2`. -/
theorem epoch_loss_batch_count_counterexample :
    classifierEpochLoss [1, 1] = 1 ∧ damicEpochLoss [1, 1] = 1 ∧
    sampleNormalizedLoss [2, 2] [1, 1] = 1 / 2 ∧
    classifierEpochLoss [1, 1] ≠ sampleNormalizedLoss [2, 2] [1, 1] := by
  norm_num [classifierEpochLoss, damicEpochLoss, sampleNormalizedLoss]

/-- C5 amended: only `_train_one_epoch` divides by a sample count (the length
of the loader's dataset); `_train_one_epoch_classifier` and
`_train_one_epoch_damic` divide by the number of batches, and that batch-count
normalization agrees with sample normalization exactly when the total sample
count equals the number of batches. -/
theorem epoch_loss_normalization :
    (∀ (n : ℕ) (bl : List ℚ), aeEpochLoss n bl = bl.sum / (n : ℚ)) ∧
    (∀ bl : List ℚ, classifierEpochLoss bl = bl.sum / (bl.length : ℚ) ∧
      damicEpochLoss bl = classifierEpochLoss bl) ∧
    (∀ (sizes : List ℕ) (bl : List ℚ), (sizes.sum : ℚ) = (bl.length : ℚ) →
      sampleNormalizedLoss sizes bl = classifierEpochLoss bl) ∧
    aeEpochLoss 4 [1, 1] = 1 / 2 ∧ classifierEpochLoss [1, 1] = 1 := by
  refine ⟨fun n bl => rfl, fun bl => ⟨rfl, rfl⟩, ?_, by norm_num [aeEpochLoss],
    by norm_num [classifierEpochLoss]⟩
  intro sizes bl h
  unfold sampleNormalizedLoss classifierEpochLoss
  rw [h]

/-- C5 witness: with singleton batches the two normalizations coincide. -/
theorem epoch_loss_normalization_witness :
    sampleNormalizedLoss [1, 1] [1, 1] = classifierEpochLoss [1, 1] :=
  epoch_loss_normalization.2.2.1 [1, 1] [1, 1] (by norm_num)

/-- C6: in both training loops the persisted checkpoint is always the best
validation metric observed so far, and a checkpoint is written only on strict
improvement.  For `train_network`: the checkpoint metrics strictly decrease,
the last checkpoint records its epoch's validation loss and is a lower bound
of every epoch's validation loss, and at least one checkpoint exists once an
epoch has run.  For the semi-supervised trainer: the checkpoint epochs have
strictly increasing F1 and the last checkpoint's F1 dominates the F1 of every
epoch that ran (also under early stopping). -/
theorem checkpoint_best_metric_invariant :
    (∀ (n : ℕ) (losses : ℕ → ℚ),
      List.Chain' (fun a b : ℕ × ℚ => b.2 < a.2) (tnRun n losses).saved ∧
      (∀ l, (tnRun n losses).saved.getLast? = some l →
        l.1 < n ∧ l.2 = losses l.1 ∧ ∀ j < n, l.2 ≤ losses j) ∧
      (0 < n → (tnRun n losses).saved ≠ [])) ∧
    (∀ (p n : ℕ) (f1 : ℕ → ℚ),
      List.Chain' (fun a b : ℕ => f1 a < f1 b) (ssRun p n f1).saved ∧
      (∀ e, (ssRun p n f1).saved.getLast? = some e →
        e < (ssRun p n f1).epochsRun ∧ ∀ j < (ssRun p n f1).epochsRun, f1 j ≤ f1 e)) := by
  constructor
  · intro n losses
    obtain ⟨t, ht⟩ := tnRunAux_total losses n 0 ⟨none, []⟩
    have htn : tnRun n losses = t := by
      unfold tnRun tnRunE
      rw [ht]
    have hinv := tnRunAux_inv losses n 0 ⟨none, []⟩ t ht (by simp) (by simp)
      (Or.inl ⟨rfl, rfl⟩) (by omega)
    rw [htn]
    refine ⟨hinv.1, ?_, ?_⟩
    · intro l hl
      have hmem := mem_of_getLast?_eq hl
      have h1 := hinv.2.1 l hmem
      rcases hinv.2.2.1 with ⟨hnil, -⟩ | ⟨l2, hl2, hbl2⟩
      · rw [hnil] at hl
        simp at hl
      · have heq : l2 = l := by
          rw [hl2] at hl
          injection hl
        subst heq
        refine ⟨by simpa using h1.1, h1.2, ?_⟩
        intro j hj
        obtain ⟨q, hq, hle⟩ := hinv.2.2.2 j (by simpa using hj)
        rw [hbl2] at hq
        have hq2 : l2.2 = q := by injection hq
        rw [hq2]
        exact hle
    · intro hn hnil
      rcases n with - | m
      · exact absurd hn (by omega)
      · rw [tnRunAux_nofail_succ] at ht
        have hstep : tnNext 0 (losses 0) ⟨none, []⟩ =
            ⟨some (losses 0), [(0, losses 0)]⟩ := by
          unfold tnNext
          rw [if_pos (improvesLoss_none (losses 0))]
          simp
        rw [hstep] at ht
        obtain ⟨ext, hext⟩ := tnRunAux_saved_prefix losses m 1 _ t ht
        rw [hnil] at hext
        simp at hext
  · intro p n f1
    obtain ⟨t, ht⟩ := ssRunAux_total p f1 n 0 ssInit
    have hsn : ssRun p n f1 = t := by
      unfold ssRun ssRunE
      rw [ht]
    have hinv := ssRunAux_inv p f1 n 0 ssInit t ht rfl (by simp [ssInit]) (by simp [ssInit])
      (Or.inl ⟨rfl, rfl⟩) (by omega)
    rw [hsn]
    refine ⟨hinv.1, ?_⟩
    intro e he
    have hmem := mem_of_getLast?_eq he
    refine ⟨hinv.2.1 e hmem, ?_⟩
    intro j hj
    rcases hinv.2.2.1 with ⟨hnil, -⟩ | ⟨a, ha, hba⟩
    · rw [hnil] at he
      simp at he
    · have heq : a = e := by
        rw [ha] at he
        injection he
      subst heq
      rw [← hba]
      exact hinv.2.2.2 j hj

/-- C6 witness: for losses `[3, 2, 5, ...]` the last checkpoint `(1, 2)`
records epoch `1`, its loss `2`, and bounds every observed loss. -/
theorem checkpoint_best_metric_invariant_witness :
    (1:ℕ) < 3 ∧ (2:ℚ) = exLosses 1 ∧ ∀ j < 3, (2:ℚ) ≤ exLosses j :=
  (checkpoint_best_metric_invariant.1 3 exLosses).2.1 (1, 2)
    (by norm_num [tnRun, tnRunE, tnRunAux, tnStep, improvesLoss, exLosses])

/-- C8: for every nonempty dataset of size `N` and positive batch size `B`,
one full pass of the batch stream sums to exactly `N`, every batch before the
last has size `B`, every batch is nonempty and at most `B`, the infinite
stream is defined at every index with a size drawn from the pass (no
end-of-data), and after `numBatches` batches the stream repeats — a new pass
begins transparently. -/
theorem batch_stream_contract (N B : ℕ) (hN : 0 < N) (hB : 0 < B) :
    (passSizes N B).sum = N ∧
    0 < numBatches N B ∧
    (passSizes N B).length = numBatches N B ∧
    (∀ s ∈ (passSizes N B).dropLast, s = B) ∧
    (∀ s ∈ passSizes N B, 0 < s ∧ s ≤ B) ∧
    (∀ k, batchStream N B k ∈ passSizes N B) ∧
    (∀ k, batchStream N B (k + numBatches N B) = batchStream N B k) := by
  have hlen : (passSizes N B).length = numBatches N B := by
    unfold passSizes numBatches
    by_cases h : N % B = 0 <;> simp [h]
  have hpos : 0 < numBatches N B := by
    unfold numBatches
    by_cases h : N % B = 0
    · have hdvd : B ∣ N := Nat.dvd_of_mod_eq_zero h
      have := Nat.div_pos (Nat.le_of_dvd hN hdvd) hB
      simp [h]
      omega
    · simp [h]
  refine ⟨?_, hpos, hlen, ?_, ?_, ?_, ?_⟩
  · unfold passSizes
    by_cases h : N % B = 0
    · have hdvd : B ∣ N := Nat.dvd_of_mod_eq_zero h
      simp [h, List.sum_replicate, Nat.div_mul_cancel hdvd, Nat.mul_comm]
    · simp only [if_neg h, List.sum_append, List.sum_replicate, smul_eq_mul,
        List.sum_cons, List.sum_nil, Nat.add_zero]
      rw [Nat.mul_comm]
      exact Nat.div_add_mod N B
  · intro s hs
    unfold passSizes at hs
    by_cases h : N % B = 0
    · simp only [if_pos h, List.append_nil] at hs
      exact List.eq_of_mem_replicate (List.dropLast_subset _ hs)
    · simp only [if_neg h, List.dropLast_concat] at hs
      exact List.eq_of_mem_replicate hs
  · intro s hs
    unfold passSizes at hs
    rcases List.mem_append.1 hs with h1 | h2
    · have := List.eq_of_mem_replicate h1
      omega
    · by_cases h : N % B = 0
      · simp [h] at h2
      · simp [h] at h2
        have := Nat.mod_lt N hB
        omega
  · intro k
    unfold batchStream
    have hk : k % numBatches N B < (passSizes N B).length := by
      rw [hlen]; exact Nat.mod_lt _ hpos
    rw [List.getD_eq_getElem _ _ hk]
    exact List.getElem_mem hk
  · intro k
    unfold batchStream
    rw [Nat.add_mod_right]

/-- C8 witness: the contract instantiated at `N = 5`, `B = 2` — a pass has
sizes `[2, 2, 1]` summing to `5`. -/
theorem batch_stream_contract_witness :
    (passSizes 5 2).sum = 5 ∧
    0 < numBatches 5 2 ∧
    (passSizes 5 2).length = numBatches 5 2 ∧
    (∀ s ∈ (passSizes 5 2).dropLast, s = 2) ∧
    (∀ s ∈ passSizes 5 2, 0 < s ∧ s ≤ 2) ∧
    (∀ k, batchStream 5 2 k ∈ passSizes 5 2) ∧
    (∀ k, batchStream 5 2 (k + numBatches 5 2) = batchStream 5 2 k) :=
  batch_stream_contract 5 2 (by norm_num) (by norm_num)

/-- C9: in both training loops a failing checkpoint write aborts the run with
the working-directory diagnostic (the abort value carries exactly the printed
message and occurs only at an epoch whose write actually fails), and a run
that completes normally never passed a failing write for any checkpoint it
persisted — it never silently continues without persisting. -/
theorem checkpoint_failure_aborts :
    (∀ (fails : ℕ → Bool) (n : ℕ) (losses : ℕ → ℚ) (msg : String) (e : ℕ),
      tnRunE fails n losses = .error (msg, e) → msg = fnfDiagnostic ∧ fails e = true) ∧
    (∀ (fails : ℕ → Bool) (n : ℕ) (losses : ℕ → ℚ) (s : TNState),
      tnRunE fails n losses = .ok s → ∀ q ∈ s.saved, fails q.1 = false) ∧
    (∀ (p n : ℕ) (fails : ℕ → Bool) (f1 : ℕ → ℚ) (msg : String) (e : ℕ),
      ssRunE p n fails f1 = .error (msg, e) → msg = fnfDiagnostic ∧ fails e = true) ∧
    (∀ (p n : ℕ) (fails : ℕ → Bool) (f1 : ℕ → ℚ) (s : SSState),
      ssRunE p n fails f1 = .ok s → ∀ j ∈ s.saved, fails j = false) := by
  refine ⟨?_, ?_, ?_, ?_⟩
  · intro fails n losses msg e h
    exact tnRunAux_error_elim fails losses n 0 _ msg e h
  · intro fails n losses s h
    exact tnRunAux_ok_saved fails losses n 0 _ s h (by simp)
  · intro p n fails f1 msg e h
    exact ssRunAux_error_elim p fails f1 n 0 _ msg e h
  · intro p n fails f1 s h
    exact ssRunAux_ok_saved p fails f1 n 0 _ s h (by simp [ssInit])

/-- C9 witness: a run whose very first checkpoint write fails aborts with the
diagnostic at epoch 0. -/
theorem checkpoint_failure_aborts_witness :
    fnfDiagnostic = fnfDiagnostic ∧ (fun _ : ℕ => true) 0 = true :=
  checkpoint_failure_aborts.1 (fun _ => true) 1 exLosses fnfDiagnostic 0 rfl

/-- C10: if the batch size exceeds the labeled dataset size then
`n_labeled_batch = n_unlabeled_batch = len // batch_size = 0`, no batch is
trained, and both phase routines hit a division by zero when normalizing by
the zero sample count (`none`); conversely, either phase completing without
error forces `batch_size ≤ len(labeled dataset)`. -/
theorem semisup_batch_size_guard :
    (∀ (NL NU B : ℕ) (f g : ℕ → ℚ), NL < B →
      nLabeledBatch NL B = 0 ∧
      unlabeledEpochLoss NU B (nLabeledBatch NL B) f = none ∧
      labeledEpochLoss NL B (nLabeledBatch NL B) g = none) ∧
    (∀ (NL NU B : ℕ) (f : ℕ → ℚ),
      unlabeledEpochLoss NU B (nLabeledBatch NL B) f ≠ none → B ≤ NL) ∧
    (∀ (NL B : ℕ) (g : ℕ → ℚ),
      labeledEpochLoss NL B (nLabeledBatch NL B) g ≠ none → B ≤ NL) := by
  have hz : ∀ NL B, NL < B → nLabeledBatch NL B = 0 := by
    intro NL B h
    simp [nLabeledBatch, Nat.div_eq_of_lt h]
  refine ⟨?_, ?_, ?_⟩
  · intro NL NU B f g h
    refine ⟨hz NL B h, ?_, ?_⟩ <;>
      simp [hz NL B h, unlabeledEpochLoss, labeledEpochLoss]
  · intro NL NU B f h
    by_contra hb
    push_neg at hb
    exact h (by simp [hz NL B hb, unlabeledEpochLoss])
  · intro NL B g h
    by_contra hb
    push_neg at hb
    exact h (by simp [hz NL B hb, labeledEpochLoss])

/-- C10 witness: a labeled dataset of 3 samples with batch size 5 trains no
batch in either phase and both normalizations divide by zero. -/
theorem semisup_batch_size_guard_witness :
    nLabeledBatch 3 5 = 0 ∧
    unlabeledEpochLoss 7 5 (nLabeledBatch 3 5) (fun _ => 1) = none ∧
    labeledEpochLoss 3 5 (nLabeledBatch 3 5) (fun _ => 1) = none :=
  semisup_batch_size_guard.1 3 7 5 (fun _ => 1) (fun _ => 1) (by norm_num)

end Horoma
